import Mathlib

/-!
Verification development for the Medivice patient-intake system.

The data model (Patient, SymptomReport) and the dashboard pages are embedded
from the TypeScript sources under src/frontend; the record-reconciliation
engine (the backend main.py) is not part of the shipped sources, so its
operations are modelled from the design document, as marked on each
definition.
-/

namespace Medivice

/-- ASCII-folding lowercase of a string, written on the character list so that
the kernel can evaluate it on concrete inputs. -/
def lowerStr (s : String) : String := ⟨s.data.map Char.toLower⟩

/-- Case-insensitive membership of a string in a list of strings. -/
def ciMem (x : String) (l : List String) : Prop :=
  lowerStr x ∈ l.map lowerStr

instance (x : String) (l : List String) : Decidable (ciMem x l) :=
  inferInstanceAs (Decidable (lowerStr x ∈ l.map lowerStr))

/-- A string that is empty or consists only of whitespace characters. -/
def isBlank (s : String) : Prop := ∀ c ∈ s.data, c.isWhitespace = true

instance (s : String) : Decidable (isBlank s) :=
  inferInstanceAs (Decidable (∀ c ∈ s.data, c.isWhitespace = true))

/-- Gender enumeration from the Patient interface in
src/frontend/src/dummyDatabase/database.ts. -/
inductive Gender
  | male
  | female
  | other
deriving DecidableEq, Repr

/-- Address sub-object of the Patient interface in database.ts. -/
structure Address where
  street : String
  city : String
  state : String
  zipCode : String
deriving DecidableEq, Repr

/-- Severity enumeration of a symptom entry (database.ts, SymptomReport). -/
inductive Severity
  | mild
  | moderate
  | severe
  | critical
deriving DecidableEq, Repr

/-- Urgency enumeration of an aiAnalysis entry (database.ts, SymptomReport). -/
inductive Urgency
  | low
  | medium
  | high
  | urgent
deriving DecidableEq, Repr

/-- The reportedBy enumeration of a SymptomReport (database.ts). -/
inductive ReportedBy
  | patient
  | ai
  | caregiver
  | doctor
deriving DecidableEq, Repr

/-- The source enumeration of a SymptomReport (database.ts). -/
inductive ReportSource
  | chat
  | phone
  | email
  | visit
  | ai_analysis
deriving DecidableEq, Repr

/-- The status enumeration of a SymptomReport (database.ts). -/
inductive SymptomStatus
  | new
  | reviewed
  | in_progress
  | resolved
  | addressed
deriving DecidableEq, Repr, Fintype

/-- One symptom entry of a SymptomReport (database.ts). -/
structure Symptom where
  description : String
  severity : Severity
  duration : Option String
  frequency : Option String
  triggers : Option (List String)
deriving DecidableEq, Repr

/-- The aiAnalysis sub-object of a SymptomReport (database.ts). -/
structure AiAnalysis where
  summary : String
  urgency : Urgency
  suggestedActions : List String
  confidence : Nat
  relatedConditions : Option (List String)
deriving DecidableEq, Repr

/-- The type enumeration of a SymptomReport attachment (database.ts). -/
inductive AttachmentType
  | transcript
  | recording
  | document
  | image
deriving DecidableEq, Repr

/-- One attachment of a SymptomReport (database.ts). -/
structure Attachment where
  type : AttachmentType
  url : String
  description : String
deriving DecidableEq, Repr

/-- SymptomReport, embedded field for field from the interface in
src/frontend/src/dummyDatabase/database.ts (lines 190-217). -/
structure SymptomReport where
  id : String
  timestamp : String
  reportedBy : ReportedBy
  source : ReportSource
  symptoms : List Symptom
  aiAnalysis : Option AiAnalysis
  status : SymptomStatus
  assignedTo : Option String
  notes : Option String
  attachments : Option (List Attachment)
deriving DecidableEq, Repr

/-- Patient, embedded field for field from the interface in
src/frontend/src/dummyDatabase/database.ts (lines 219-249): fields marked
optional there become Option, the rest are plain. -/
structure Patient where
  id : String
  firstName : String
  lastName : String
  dateOfBirth : String
  gender : Gender
  phoneNumber : String
  email : Option String
  address : Option Address
  insuranceProvider : Option String
  memberId : Option String
  policyHolder : Option String
  paymentOption : Option String
  phoneCalls : Option Nat
  emails : Option Nat
  familyHistory : Option String
  medicalHistory : Option String
  consentForms : Option (List String)
  allergies : Option (List String)
  medications : Option (List String)
  conditions : Option (List String)
  lastVisit : Option String
  nextAppointment : Option String
  symptomReports : Option (List SymptomReport)
  aiSummary : Option String
deriving DecidableEq, Repr

/-- A patient object as it appears in the persisted JSON layout
(backend patients.json, documented in src/README.md): every identity field
other than id may be absent, so each is an Option. -/
structure PatientJson where
  id : String
  firstName : Option String
  lastName : Option String
  dateOfBirth : Option String
  gender : Option Gender
  phoneNumber : Option String
  email : Option String
  address : Option Address
deriving DecidableEq, Repr

/-- Identity fields a PatientJson value must carry to satisfy the Patient
interface of database.ts (lines 219-232): firstName, lastName, dateOfBirth,
gender and phoneNumber are all declared without the optional marker there. -/
def interfaceIdentityOk (p : PatientJson) : Bool :=
  p.firstName.isSome && p.lastName.isSome && p.dateOfBirth.isSome &&
    p.gender.isSome && p.phoneNumber.isSome

/-- Identity fields a PatientJson value must carry to satisfy the persisted
JSON schema documented in src/README.md: only id and firstName are marked
required; lastName, dateOfBirth, gender, phoneNumber, email and address are
each marked optional. -/
def schemaIdentityOk (p : PatientJson) : Bool :=
  p.firstName.isSome

/-- A record holding only id and firstName, the minimal AI-compatible patient
of the README; every other identity field is absent. -/
def minimalIdRecord : PatientJson :=
  { id := "6", firstName := some "John", lastName := none, dateOfBirth := none,
    gender := none, phoneNumber := none, email := none, address := none }

/-- What the patient detail page renders: either the not-found view or the
detail view of one patient. -/
inductive DetailView
  | notFound
  | details (p : Patient)
deriving DecidableEq, Repr

/-- The get-by-id lookup of the detail page
(src/frontend/src/app/dashboard/patients/[patientId]/page.tsx line 1437:
patientsDatabase.find with p.id === patientId). -/
def findPatient (db : List Patient) (patientId : String) : Option Patient :=
  db.find? (fun p => decide (p.id = patientId))

/-- The detail page control flow (page.tsx lines 1437-1453): render the
Patient Not Found view when the lookup misses, the details otherwise. -/
def renderPatientDetailsPage (db : List Patient) (patientId : String) : DetailView :=
  match findPatient db patientId with
  | none => DetailView.notFound
  | some p => DetailView.details p

/-- Closed report statuses, as tested by the filters in page.tsx lines
752-761: a report counts as handled when its status is addressed or
resolved. -/
def isClosedStatus : SymptomStatus → Bool
  | SymptomStatus.addressed => true
  | SymptomStatus.resolved => true
  | _ => false

/-- The recent-issue selection of the detail page (page.tsx lines 749-767):
split the reports into unaddressed and addressed ones and show the first
unaddressed one, falling back to the first addressed one. -/
def selectDisplayReport (reports : List SymptomReport) : Option SymptomReport :=
  let unaddressedReports := reports.filter (fun r => !(isClosedStatus r.status))
  let addressedReports := reports.filter (fun r => isClosedStatus r.status)
  if unaddressedReports.length > 0 then unaddressedReports.head?
  else addressedReports.head?

/-- The Mark as Addressed handler (page.tsx lines 232-234): it only raises an
alert message; no store write appears in its body. -/
def handleMarkAsAddressed (reportId : String) : String :=
  "Issue " ++ reportId ++ " marked as addressed."

/-- The interactions the dashboard offers over the record store: opening the
patient list, opening a patient detail page, and the Mark as Addressed
button of the detail page. -/
inductive DashboardAction
  | viewList
  | viewDetails (patientId : String)
  | markAsAddressed (patientId : String) (reportId : String)
deriving DecidableEq, Repr

/-- What a dashboard interaction shows the user. -/
inductive DashboardOutput
  | listView (rows : List Patient)
  | detailView (v : DetailView)
  | alertMsg (s : String)
deriving DecidableEq, Repr

/-- One dashboard interaction as a state transformer over the record store:
the returned store is the store the interaction leaves behind. The list page
(dashboard/patients/page.tsx) only reads patientsDatabase into its table and
mutates component-local view state; the detail page reads the store and its
only handler is handleMarkAsAddressed, which alerts; neither path contains a
store write. -/
def dashboardStep (db : List Patient) : DashboardAction → List Patient × DashboardOutput
  | DashboardAction.viewList => (db, DashboardOutput.listView db)
  | DashboardAction.viewDetails pid =>
      (db, DashboardOutput.detailView (renderPatientDetailsPage db pid))
  | DashboardAction.markAsAddressed _ rid =>
      (db, DashboardOutput.alertMsg (handleMarkAsAddressed rid))

/-- The store after a whole sequence of dashboard interactions. -/
def dashboardRun (db : List Patient) (acts : List DashboardAction) : List Patient :=
  acts.foldl (fun s a => (dashboardStep s a).1) db

/-- Modelled from the spec: the identity-resolution confidence returned by
the Patient Identity Resolver (design document section 4.1); the resolver
code itself (backend main.py) is not among the shipped sources. -/
inductive Confidence
  | exact
  | phoneMatched
  | nameMatched
  | newlyCreated
deriving DecidableEq, Repr

/-- Appointment status enumeration of the persisted JSON schema
(src/README.md): booked, completed or canceled. -/
inductive ApptStatus
  | booked
  | completed
  | canceled
deriving DecidableEq, Repr

/-- An appointment entry of the persisted JSON schema (src/README.md): a
when description, an optional doctor and a status. -/
structure Appointment where
  when : String
  doctor : Option String
  status : ApptStatus
deriving DecidableEq, Repr

/-- Modelled from the spec: the PatientRecord the Reconciliation Engine works
on (design document section 3 together with the persisted JSON schema of
src/README.md); the engine code itself (backend main.py) is not among the
shipped sources. Scalar fields are free text, counters default to absent,
the four string-set fields and the appointment and symptom-report logs are
plain sequences. -/
structure PatientRecord where
  id : String
  firstName : String
  lastName : Option String
  dateOfBirth : Option String
  phoneNumber : Option String
  email : Option String
  address : Option String
  insuranceProvider : Option String
  memberId : Option String
  policyHolder : Option String
  paymentOption : Option String
  phoneCalls : Option Nat
  emails : Option Nat
  familyHistory : Option String
  medicalHistory : Option String
  consentForms : List String
  allergies : List String
  medications : List String
  conditions : List String
  appointments : List Appointment
  nextAppointment : Option String
  symptomReports : List SymptomReport
deriving DecidableEq, Repr

/-- Modelled from the spec: the scalar identity, insurance and free-text
history fields of section 4.2's merge table. -/
inductive ScalarField
  | firstName
  | lastName
  | dateOfBirth
  | phoneNumber
  | email
  | address
  | insuranceProvider
  | memberId
  | policyHolder
  | paymentOption
  | familyHistory
  | medicalHistory
deriving DecidableEq, Repr, Fintype

/-- Modelled from the spec: the two monotonic contact counters. -/
inductive CounterField
  | phoneCalls
  | emails
deriving DecidableEq, Repr

/-- Modelled from the spec: the four append-only string-set fields. -/
inductive SetField
  | consentForms
  | allergies
  | medications
  | conditions
deriving DecidableEq, Repr, Fintype

/-- Modelled from the spec: the tagged-variant ProposedUpdate of design note
section 9, one constructor per field class of section 4.2's merge table. -/
inductive ProposedUpdate
  | setScalar (f : ScalarField) (value : String)
  | incCounter (c : CounterField) (delta : Nat)
  | addEntries (f : SetField) (entries : List String)
  | bookAppointment (a : Appointment)
  | setAppointmentStatus (whenKey : String) (doctorKey : Option String) (st : ApptStatus)
  | addSymptomReport (rep : SymptomReport)
  | setReportStatus (reportId : String) (st : SymptomStatus)
deriving DecidableEq, Repr

/-- Modelled from the spec: why a proposal was skipped (section 7's local
error taxonomy plus the duplicate-collapse of section 8). -/
inductive SkipReason
  | invalidTransition
  | invalidSchema
  | duplicateEntry
  | noMatch
  | emptyValue
deriving DecidableEq, Repr

/-- Modelled from the spec: why a proposal needs clarification. -/
inductive ClarifyReason
  | lowConfidenceSensitive
deriving DecidableEq, Repr

/-- Modelled from the spec: one changelog entry per processed proposal,
tagged applied, skipped or needs-clarification (section 4.2 contract). -/
inductive ChangeEntry
  | applied (u : ProposedUpdate)
  | skipped (u : ProposedUpdate) (r : SkipReason)
  | needsClarification (u : ProposedUpdate) (r : ClarifyReason)
deriving DecidableEq, Repr

/-- The insurance and payment fields the spec calls sensitive: they may only
be overwritten on an exact or phone-matched resolution. -/
def isSensitiveField : ScalarField → Bool
  | ScalarField.insuranceProvider => true
  | ScalarField.memberId => true
  | ScalarField.policyHolder => true
  | ScalarField.paymentOption => true
  | _ => false

/-- Confidence levels allowed to touch sensitive fields (section 4.2:
insurance and payment updates require exact or phone-matched confidence). -/
def confidenceAllowsSensitive : Confidence → Bool
  | Confidence.exact => true
  | Confidence.phoneMatched => true
  | _ => false

/-- Read one scalar field of a record. -/
def getScalarField (r : PatientRecord) : ScalarField → Option String
  | ScalarField.firstName => some r.firstName
  | ScalarField.lastName => r.lastName
  | ScalarField.dateOfBirth => r.dateOfBirth
  | ScalarField.phoneNumber => r.phoneNumber
  | ScalarField.email => r.email
  | ScalarField.address => r.address
  | ScalarField.insuranceProvider => r.insuranceProvider
  | ScalarField.memberId => r.memberId
  | ScalarField.policyHolder => r.policyHolder
  | ScalarField.paymentOption => r.paymentOption
  | ScalarField.familyHistory => r.familyHistory
  | ScalarField.medicalHistory => r.medicalHistory

/-- Overwrite one scalar field of a record (last-write-wins). -/
def setScalarField (r : PatientRecord) (f : ScalarField) (v : String) : PatientRecord :=
  match f with
  | ScalarField.firstName => { r with firstName := v }
  | ScalarField.lastName => { r with lastName := some v }
  | ScalarField.dateOfBirth => { r with dateOfBirth := some v }
  | ScalarField.phoneNumber => { r with phoneNumber := some v }
  | ScalarField.email => { r with email := some v }
  | ScalarField.address => { r with address := some v }
  | ScalarField.insuranceProvider => { r with insuranceProvider := some v }
  | ScalarField.memberId => { r with memberId := some v }
  | ScalarField.policyHolder => { r with policyHolder := some v }
  | ScalarField.paymentOption => { r with paymentOption := some v }
  | ScalarField.familyHistory => { r with familyHistory := some v }
  | ScalarField.medicalHistory => { r with medicalHistory := some v }

/-- Read one of the four append-only string-set fields. -/
def getSetField (r : PatientRecord) : SetField → List String
  | SetField.consentForms => r.consentForms
  | SetField.allergies => r.allergies
  | SetField.medications => r.medications
  | SetField.conditions => r.conditions

/-- Rewrite one of the four append-only string-set fields. -/
def mapSetField (r : PatientRecord) (f : SetField) (g : List String → List String) :
    PatientRecord :=
  match f with
  | SetField.consentForms => { r with consentForms := g r.consentForms }
  | SetField.allergies => { r with allergies := g r.allergies }
  | SetField.medications => { r with medications := g r.medications }
  | SetField.conditions => { r with conditions := g r.conditions }

/-- Modelled from the spec: the union merge of an append-only string set
(section 4.2 merge table): walk the proposed entries in order and append
each one that is not yet present under case-insensitive comparison, keeping
the first-seen casing and never removing anything. -/
def mergeStringSet (l : List String) : List String → List String
  | [] => l
  | e :: rest => mergeStringSet (if ciMem e l then l else l ++ [e]) rest

/-- Whether some appointment in the list carries the given when+doctor key
(the key section 4.2 uses to address an existing appointment). -/
def hasApptKey (l : List Appointment) (w : String) (d : Option String) : Prop :=
  ∃ a ∈ l, a.when = w ∧ a.doctor = d

instance (l : List Appointment) (w : String) (d : Option String) :
    Decidable (hasApptKey l w d) :=
  inferInstanceAs (Decidable (∃ a ∈ l, a.when = w ∧ a.doctor = d))

/-- The when+doctor keys of an appointment list, in order. -/
def apptKeys (l : List Appointment) : List (String × Option String) :=
  l.map (fun a => (a.when, a.doctor))

/-- Modelled from the spec: the forward-only transitions of the symptom
report status state machine (section 4.2): new to reviewed, reviewed to
in_progress, in_progress to resolved or addressed, and new directly to
resolved or addressed. -/
def allowedTransition : SymptomStatus → SymptomStatus → Bool
  | SymptomStatus.new, SymptomStatus.reviewed => true
  | SymptomStatus.reviewed, SymptomStatus.in_progress => true
  | SymptomStatus.in_progress, SymptomStatus.resolved => true
  | SymptomStatus.in_progress, SymptomStatus.addressed => true
  | SymptomStatus.new, SymptomStatus.resolved => true
  | SymptomStatus.new, SymptomStatus.addressed => true
  | _, _ => false

/-- Position of a status in the partial order new, reviewed, in_progress,
then resolved or addressed (the two closed states share the top rank). -/
def statusRank : SymptomStatus → Nat
  | SymptomStatus.new => 0
  | SymptomStatus.reviewed => 1
  | SymptomStatus.in_progress => 2
  | SymptomStatus.resolved => 3
  | SymptomStatus.addressed => 3

/-- Modelled from the spec: the Reconciliation Engine's treatment of one
proposed update (section 4.2 merge table, conflict policy and failure
semantics; the engine code, backend main.py, is not among the shipped
sources). Sensitive scalar updates on a low-confidence resolution are
flagged for clarification and not applied; blank scalar values are no
update; counters only ever increase; string-set entries merge with the
case-insensitive union; a booking appends unless an appointment with the
same when+doctor key already exists (the duplicate collapse of section 8); a
status change addresses the existing entries with the matching key and
never appends; a symptom report batch with no symptoms is rejected as
invalid schema, any other report is appended; a report status proposal is
applied only along an allowed forward transition and skipped as an invalid
transition otherwise. -/
def mergeOne (conf : Confidence) (r : PatientRecord) (u : ProposedUpdate) :
    PatientRecord × ChangeEntry :=
  match u with
  | ProposedUpdate.setScalar f v =>
      if isSensitiveField f && !(confidenceAllowsSensitive conf) then
        (r, ChangeEntry.needsClarification u ClarifyReason.lowConfidenceSensitive)
      else if isBlank v then (r, ChangeEntry.skipped u SkipReason.emptyValue)
      else (setScalarField r f v, ChangeEntry.applied u)
  | ProposedUpdate.incCounter c delta =>
      match c with
      | CounterField.phoneCalls =>
          ({ r with phoneCalls := some (r.phoneCalls.getD 0 + delta) }, ChangeEntry.applied u)
      | CounterField.emails =>
          ({ r with emails := some (r.emails.getD 0 + delta) }, ChangeEntry.applied u)
  | ProposedUpdate.addEntries f es =>
      (mapSetField r f (fun l => mergeStringSet l es), ChangeEntry.applied u)
  | ProposedUpdate.bookAppointment a =>
      if hasApptKey r.appointments a.when a.doctor then
        (r, ChangeEntry.skipped u SkipReason.duplicateEntry)
      else
        ({ r with appointments :=
            r.appointments ++ [{ a with status := ApptStatus.booked }] },
          ChangeEntry.applied u)
  | ProposedUpdate.setAppointmentStatus w d st =>
      if hasApptKey r.appointments w d then
        ({ r with appointments := r.appointments.map (fun a =>
            if a.when = w ∧ a.doctor = d then { a with status := st } else a) },
          ChangeEntry.applied u)
      else (r, ChangeEntry.skipped u SkipReason.noMatch)
  | ProposedUpdate.addSymptomReport rep =>
      if rep.symptoms = [] then (r, ChangeEntry.skipped u SkipReason.invalidSchema)
      else ({ r with symptomReports := r.symptomReports ++ [rep] }, ChangeEntry.applied u)
  | ProposedUpdate.setReportStatus rid st =>
      match r.symptomReports.find? (fun rep => decide (rep.id = rid)) with
      | none => (r, ChangeEntry.skipped u SkipReason.noMatch)
      | some rep =>
          if allowedTransition rep.status st then
            ({ r with symptomReports := r.symptomReports.map (fun x =>
                if x.id = rid then { x with status := st } else x) },
              ChangeEntry.applied u)
          else (r, ChangeEntry.skipped u SkipReason.invalidTransition)

/-- Modelled from the spec: process a whole proposed-update batch in the
order the extraction adapter emitted it, collecting one changelog entry per
proposal. -/
def mergeBatch (conf : Confidence) (r : PatientRecord) :
    List ProposedUpdate → PatientRecord × List ChangeEntry
  | [] => (r, [])
  | u :: rest =>
      let step := mergeOne conf r u
      let next := mergeBatch conf step.1 rest
      (next.1, step.2 :: next.2)

/-- The record part of mergeBatch. -/
def applyBatch (conf : Confidence) (r : PatientRecord) (batch : List ProposedUpdate) :
    PatientRecord :=
  (mergeBatch conf r batch).1

/-- Modelled from the spec: recompute the derived nextAppointment pointer by
scanning the appointment log in insertion order and remembering the when of
every booked entry whose time has not passed, so that the last such entry
wins (sections 3 and 9; notPast is the caller's clock oracle on when
descriptions). -/
def recomputeNextAppointment (notPast : String → Bool) (appts : List Appointment) :
    Option String :=
  appts.foldl
    (fun acc a =>
      if a.status = ApptStatus.booked ∧ notPast a.when = true then some a.when else acc)
    none

/-- Modelled from the spec: one reconciliation call (section 4.2 contract):
merge the batch into the record and refresh the derived nextAppointment
projection, returning the new snapshot and the changelog. -/
def reconcile (conf : Confidence) (notPast : String → Bool) (r : PatientRecord)
    (batch : List ProposedUpdate) : PatientRecord × List ChangeEntry :=
  let m := mergeBatch conf r batch
  ({ m.1 with nextAppointment := recomputeNextAppointment notPast m.1.appointments }, m.2)

/-- Case-insensitive freedom from duplicates for a string-set field. -/
def ciNodup (l : List String) : Prop := (l.map lowerStr).Nodup

instance (l : List String) : Decidable (ciNodup l) :=
  inferInstanceAs (Decidable (l.map lowerStr).Nodup)

/-- The phoneCalls increment a proposal carries (zero for anything that is
not a phoneCalls counter proposal). -/
def phoneDelta : ProposedUpdate → Nat
  | ProposedUpdate.incCounter CounterField.phoneCalls d => d
  | _ => 0

/-- The emails increment a proposal carries (zero for anything that is not
an emails counter proposal). -/
def emailDelta : ProposedUpdate → Nat
  | ProposedUpdate.incCounter CounterField.emails d => d
  | _ => 0

/-- After a proposal has been processed once, this is the footprint it leaves
that makes it collapse on a replay: the entries of a string-set proposal are
all present case-insensitively, and a booking's when+doctor key is taken. -/
def established : ProposedUpdate → PatientRecord → Prop
  | ProposedUpdate.addEntries f es, r => ∀ e ∈ es, ciMem e (getSetField r f)
  | ProposedUpdate.bookAppointment a, r => hasApptKey r.appointments a.when a.doctor
  | _, _ => True

/-- Agreement of two records on the append-only array fields: the four
string sets are equal and the appointment logs carry the same keys in the
same order. -/
def sameArrays (r1 s : PatientRecord) : Prop :=
  s.conditions = r1.conditions ∧ s.allergies = r1.allergies ∧
    s.medications = r1.medications ∧ s.consentForms = r1.consentForms ∧
    apptKeys s.appointments = apptKeys r1.appointments

/-- A concrete open symptom report, used to evaluate the theorems below on
closed inputs. -/
def sampleReportNew : SymptomReport :=
  { id := "sr-100", timestamp := "2024-03-18T10:30:00Z", reportedBy := ReportedBy.ai,
    source := ReportSource.ai_analysis,
    symptoms := [{ description := "Persistent headaches", severity := Severity.moderate,
                   duration := some "7 days", frequency := none, triggers := none }],
    aiAnalysis := none, status := SymptomStatus.new, assignedTo := none, notes := none,
    attachments := none }

/-- A concrete resolved symptom report. -/
def sampleReportResolved : SymptomReport :=
  { sampleReportNew with id := "sr-200", status := SymptomStatus.resolved }

/-- A concrete reconciliation-engine record holding one existing allergy and
one resolved symptom report. -/
def sampleRecord : PatientRecord :=
  { id := "1", firstName := "Emily", lastName := some "Johnson", dateOfBirth := none,
    phoneNumber := none, email := none, address := none,
    insuranceProvider := some "Blue Cross Blue Shield", memberId := none,
    policyHolder := none, paymentOption := none, phoneCalls := none, emails := none,
    familyHistory := none, medicalHistory := none, consentForms := [],
    allergies := ["Penicillin"], medications := [], conditions := [], appointments := [],
    nextAppointment := none, symptomReports := [sampleReportResolved] }

/-- A concrete dashboard patient. -/
def samplePatient : Patient :=
  { id := "1", firstName := "Emily", lastName := "Johnson", dateOfBirth := "1990-05-12",
    gender := Gender.female, phoneNumber := "555-123-4567", email := none, address := none,
    insuranceProvider := none, memberId := none, policyHolder := none, paymentOption := none,
    phoneCalls := none, emails := none, familyHistory := none, medicalHistory := none,
    consentForms := none, allergies := none, medications := none, conditions := none,
    lastVisit := none, nextAppointment := none,
    symptomReports := some [sampleReportResolved, sampleReportNew], aiSummary := none }

/-! ## Theorems -/

/-- C8: rendering any dashboard page, the patient list, a patient detail
page or the Mark as Addressed action of the detail page, leaves every record
of the store unchanged: a single interaction and any sequence of
interactions return exactly the store they were given, so the dashboard
path performs no write. -/
theorem dashboard_read_only (db : List Patient) (a : DashboardAction)
    (acts : List DashboardAction) :
    (dashboardStep db a).1 = db ∧ dashboardRun db acts = db := by
  refine ⟨by cases a <;> rfl, ?_⟩
  induction acts generalizing db with
  | nil => rfl
  | cons x xs ih =>
      have hx : (dashboardStep db x).1 = db := by cases x <;> rfl
      calc dashboardRun db (x :: xs) = dashboardRun (dashboardStep db x).1 xs := rfl
        _ = dashboardRun db xs := by rw [hx]
        _ = db := ih db

/-- C9 (the sources disagree here): the minimal record holding only id and
firstName satisfies the persisted JSON schema documented in src/README.md,
under which firstName is the only required identity field, but violates the
Patient interface of database.ts, which additionally demands lastName,
dateOfBirth, gender and phoneNumber. -/
theorem minimal_record_interface_mismatch :
    schemaIdentityOk minimalIdRecord = true ∧ interfaceIdentityOk minimalIdRecord = false :=
  ⟨rfl, rfl⟩

/-- C7: the get-by-id lookup of the detail page renders the Patient Not
Found view exactly when no stored record carries the requested id, and
otherwise renders the details of a stored record whose id field equals the
requested id. -/
theorem get_by_id_lookup (db : List Patient) (pid : String) :
    (renderPatientDetailsPage db pid = DetailView.notFound ↔ ∀ p ∈ db, p.id ≠ pid) ∧
    (∀ q, renderPatientDetailsPage db pid = DetailView.details q → q ∈ db ∧ q.id = pid) ∧
    ((∃ p ∈ db, p.id = pid) →
      ∃ q, renderPatientDetailsPage db pid = DetailView.details q ∧ q ∈ db ∧ q.id = pid) := by
  cases h : db.find? (fun p => decide (p.id = pid)) with
  | none =>
      have hall : ∀ p ∈ db, p.id ≠ pid := by
        rw [List.find?_eq_none] at h
        intro p hp
        simpa using h p hp
      have hrender : renderPatientDetailsPage db pid = DetailView.notFound := by
        simp [renderPatientDetailsPage, findPatient, h]
      refine ⟨⟨fun _ => hall, fun _ => hrender⟩, fun q hq => ?_, fun hex => ?_⟩
      · rw [hrender] at hq; exact absurd hq (by simp)
      · obtain ⟨p, hp, hid⟩ := hex
        exact absurd hid (hall p hp)
  | some q0 =>
      have hmem : q0 ∈ db := List.mem_of_find?_eq_some h
      have hid : q0.id = pid := by simpa using List.find?_some h
      have hrender : renderPatientDetailsPage db pid = DetailView.details q0 := by
        simp [renderPatientDetailsPage, findPatient, h]
      refine ⟨⟨fun hnf => ?_, fun hall => ?_⟩, fun q hq => ?_,
        fun _ => ⟨q0, hrender, hmem, hid⟩⟩
      · rw [hrender] at hnf; exact absurd hnf (by simp)
      · exact absurd hid (hall q0 hmem)
      · rw [hrender] at hq
        injection hq with he
        subst he
        exact ⟨hmem, hid⟩

/-- Processing one proposal adds exactly the proposal's phoneCalls and
emails increments to the counters, reading an absent counter as zero. -/
theorem mergeOne_counters (conf : Confidence) (r : PatientRecord) (u : ProposedUpdate) :
    (mergeOne conf r u).1.phoneCalls.getD 0 = r.phoneCalls.getD 0 + phoneDelta u ∧
    (mergeOne conf r u).1.emails.getD 0 = r.emails.getD 0 + emailDelta u := by
  cases u with
  | setScalar f v =>
      have h1 : (setScalarField r f v).phoneCalls = r.phoneCalls := by cases f <;> rfl
      have h2 : (setScalarField r f v).emails = r.emails := by cases f <;> rfl
      simp only [mergeOne]
      split
      · simp [phoneDelta, emailDelta]
      · split <;> simp [phoneDelta, emailDelta, h1, h2]
  | incCounter c d => cases c <;> simp [mergeOne, phoneDelta, emailDelta]
  | addEntries f es =>
      have h1 : (mapSetField r f (fun l => mergeStringSet l es)).phoneCalls = r.phoneCalls := by
        cases f <;> rfl
      have h2 : (mapSetField r f (fun l => mergeStringSet l es)).emails = r.emails := by
        cases f <;> rfl
      simp [mergeOne, phoneDelta, emailDelta, h1, h2]
  | bookAppointment a =>
      simp only [mergeOne]
      split <;> simp [phoneDelta, emailDelta]
  | setAppointmentStatus w d st =>
      simp only [mergeOne]
      split <;> simp [phoneDelta, emailDelta]
  | addSymptomReport rep =>
      simp only [mergeOne]
      split <;> simp [phoneDelta, emailDelta]
  | setReportStatus rid st =>
      simp only [mergeOne]
      split <;> (try split) <;> simp [phoneDelta, emailDelta]

/-- Counter bookkeeping over a whole batch at the applyBatch level. -/
theorem applyBatch_counters (conf : Confidence) (batch : List ProposedUpdate) :
    ∀ r : PatientRecord,
      (applyBatch conf r batch).phoneCalls.getD 0
          = r.phoneCalls.getD 0 + (batch.map phoneDelta).sum ∧
      (applyBatch conf r batch).emails.getD 0
          = r.emails.getD 0 + (batch.map emailDelta).sum := by
  induction batch with
  | nil => intro r; simp [applyBatch, mergeBatch]
  | cons u rest ih =>
      intro r
      have hstep := mergeOne_counters conf r u
      have hcons : applyBatch conf r (u :: rest) = applyBatch conf (mergeOne conf r u).1 rest :=
        rfl
      have hrest := ih (mergeOne conf r u).1
      rw [hcons]
      constructor
      · rw [hrest.1, hstep.1]
        simp [Nat.add_assoc]
      · rw [hrest.2, hstep.2]
        simp [Nat.add_assoc]

/-- C6: over any reconciliation call, the phoneCalls and emails counters end
at their pre-value (absent counters reading as the default zero) plus the
sum of the deltas of the applied increment proposals of the batch, and in
particular no call ever decreases either counter. -/
theorem contact_counters_monotonic (conf : Confidence) (notPast : String → Bool)
    (r : PatientRecord) (batch : List ProposedUpdate) :
    (reconcile conf notPast r batch).1.phoneCalls.getD 0
        = r.phoneCalls.getD 0 + (batch.map phoneDelta).sum ∧
    (reconcile conf notPast r batch).1.emails.getD 0
        = r.emails.getD 0 + (batch.map emailDelta).sum ∧
    r.phoneCalls.getD 0 ≤ (reconcile conf notPast r batch).1.phoneCalls.getD 0 ∧
    r.emails.getD 0 ≤ (reconcile conf notPast r batch).1.emails.getD 0 := by
  have hb := applyBatch_counters conf batch r
  have h1 : (reconcile conf notPast r batch).1.phoneCalls = (applyBatch conf r batch).phoneCalls :=
    rfl
  have h2 : (reconcile conf notPast r batch).1.emails = (applyBatch conf r batch).emails := rfl
  refine ⟨by rw [h1, hb.1], by rw [h2, hb.2], ?_, ?_⟩
  · rw [h1, hb.1]; exact Nat.le_add_right _ _
  · rw [h2, hb.2]; exact Nat.le_add_right _ _

/-- The nextAppointment recomputation scan equals taking the when of the
last appointment that is booked and not yet past. -/
theorem recomputeNextAppointment_eq (notPast : String → Bool) (l : List Appointment) :
    recomputeNextAppointment notPast l =
      ((l.filter (fun a => decide (a.status = ApptStatus.booked ∧ notPast a.when = true))).getLast?).map
        Appointment.when := by
  induction l using List.reverseRecOn with
  | nil => rfl
  | append_singleton l a ih =>
      by_cases hp : a.status = ApptStatus.booked ∧ notPast a.when = true
      · have hf : (l ++ [a]).filter
            (fun a => decide (a.status = ApptStatus.booked ∧ notPast a.when = true))
            = l.filter (fun a => decide (a.status = ApptStatus.booked ∧ notPast a.when = true))
              ++ [a] := by
          simp [List.filter_append, hp]
        rw [hf, List.getLast?_concat]
        simp [recomputeNextAppointment, List.foldl_append, hp]
      · have hf : (l ++ [a]).filter
            (fun a => decide (a.status = ApptStatus.booked ∧ notPast a.when = true))
            = l.filter (fun a => decide (a.status = ApptStatus.booked ∧ notPast a.when = true)) := by
          simp [List.filter_append, hp]
        rw [hf, ← ih]
        simp [recomputeNextAppointment, List.foldl_append, hp]

/-- C1: after every reconciliation call the nextAppointment field of the
resulting record equals the when description of the latest appointment
entry that is booked and whose time has not passed, or none when no such
entry exists; it is a projection recomputed from the appointments sequence
and cannot diverge from it. -/
theorem nextAppointment_is_latest_booked (conf : Confidence) (notPast : String → Bool)
    (r : PatientRecord) (batch : List ProposedUpdate) :
    (reconcile conf notPast r batch).1.nextAppointment =
      (((reconcile conf notPast r batch).1.appointments.filter
          (fun a => decide (a.status = ApptStatus.booked ∧ notPast a.when = true))).getLast?).map
        Appointment.when := by
  have h1 : (reconcile conf notPast r batch).1.nextAppointment =
      recomputeNextAppointment notPast (applyBatch conf r batch).appointments := rfl
  have h2 : (reconcile conf notPast r batch).1.appointments =
      (applyBatch conf r batch).appointments := rfl
  rw [h1, h2]
  exact recomputeNextAppointment_eq notPast _

/-- The head of a filtered list is the first element satisfying the
predicate. -/
theorem head_filter_eq_find {α : Type} (p : α → Bool) (l : List α) :
    (l.filter p).head? = l.find? p := by
  induction l with
  | nil => rfl
  | cons a t ih => by_cases h : p a <;> simp [List.filter_cons, List.find?, h, ih]

/-- The element head? returns is a member of the list. -/
theorem mem_of_head?_eq_some {α : Type} {l : List α} {a : α} (h : l.head? = some a) :
    a ∈ l := by
  cases l with
  | nil => cases h
  | cons x t =>
      have hx : x = a := by simpa using h
      rw [← hx]
      exact List.mem_cons_self x t

/-- C10: for a patient with at least one symptom report the detail page
selects exactly one report to display: the first report in sequence order
whose status is neither addressed nor resolved, and when every report is
addressed or resolved, the first report of the sequence (which is then the
first such closed report). -/
theorem display_report_selection (reports : List SymptomReport) (hne : reports ≠ []) :
    ∃ r, selectDisplayReport reports = some r ∧
      ((∃ x ∈ reports, isClosedStatus x.status = false) →
        reports.find? (fun x => !(isClosedStatus x.status)) = some r) ∧
      ((∀ x ∈ reports, isClosedStatus x.status = true) → reports.head? = some r) := by
  by_cases hu : (reports.filter (fun r => !(isClosedStatus r.status))).length > 0
  · have hsel : selectDisplayReport reports
        = (reports.filter (fun r => !(isClosedStatus r.status))).head? := by
      simp only [selectDisplayReport]
      rw [if_pos hu]
    obtain ⟨r, hr⟩ : ∃ r,
        (reports.filter (fun x => !(isClosedStatus x.status))).head? = some r := by
      cases hfl : reports.filter (fun x => !(isClosedStatus x.status)) with
      | nil => rw [hfl] at hu; simp at hu
      | cons a t => exact ⟨a, rfl⟩
    refine ⟨r, by rw [hsel, hr], fun _ => ?_, fun hall => ?_⟩
    · rw [← head_filter_eq_find]
      exact hr
    · exfalso
      have hmemf := mem_of_head?_eq_some hr
      have := List.mem_filter.mp hmemf
      have hopen : isClosedStatus r.status = false := by simpa using this.2
      have hclosed := hall r this.1
      rw [hclosed] at hopen
      exact Bool.noConfusion hopen
  · have hu0 : reports.filter (fun x => !(isClosedStatus x.status)) = [] := by
      cases hfl : reports.filter (fun x => !(isClosedStatus x.status)) with
      | nil => rfl
      | cons a t => rw [hfl] at hu; simp at hu
    have hall : ∀ x ∈ reports, isClosedStatus x.status = true := by
      intro x hx
      have := List.filter_eq_nil_iff.mp hu0 x hx
      simpa using this
    have hfc : reports.filter (fun r => isClosedStatus r.status) = reports :=
      List.filter_eq_self.mpr (fun a ha => hall a ha)
    have hsel : selectDisplayReport reports = reports.head? := by
      simp only [selectDisplayReport]
      rw [if_neg hu, hfc]
    obtain ⟨r, hr⟩ : ∃ r, reports.head? = some r := by
      cases reports with
      | nil => exact absurd rfl hne
      | cons a t => exact ⟨a, rfl⟩
    refine ⟨r, by rw [hsel, hr], fun hex => ?_, fun _ => hr⟩
    obtain ⟨x, hx, hcl⟩ := hex
    rw [hall x hx] at hcl
    exact Bool.noConfusion hcl

/-- Evaluation of the display selection on a concrete report list whose
first report is resolved and whose second is new: the new one is picked. -/
theorem display_report_selection_witness :
    ∃ r, selectDisplayReport [sampleReportResolved, sampleReportNew] = some r ∧
      ((∃ x ∈ [sampleReportResolved, sampleReportNew], isClosedStatus x.status = false) →
        [sampleReportResolved, sampleReportNew].find?
          (fun x => !(isClosedStatus x.status)) = some r) ∧
      ((∀ x ∈ [sampleReportResolved, sampleReportNew], isClosedStatus x.status = true) →
        [sampleReportResolved, sampleReportNew].head? = some r) :=
  display_report_selection [sampleReportResolved, sampleReportNew] (by decide)

/-- C2: the symptom report status machine only moves forward: the allowed
transitions are exactly the six of the design (new to reviewed, reviewed to
in_progress, in_progress to resolved or addressed, new directly to resolved
or addressed), every allowed transition strictly increases the status rank,
a proposal towards an earlier-or-equal rank is never allowed, and the engine
answers any disallowed status proposal by recording it as skipped with the
invalid-transition reason while leaving the record, hence the report status,
unchanged. -/
theorem report_status_forward_only :
    (∀ s t, allowedTransition s t = true ↔
      (s, t) ∈ ([(SymptomStatus.new, SymptomStatus.reviewed),
        (SymptomStatus.reviewed, SymptomStatus.in_progress),
        (SymptomStatus.in_progress, SymptomStatus.resolved),
        (SymptomStatus.in_progress, SymptomStatus.addressed),
        (SymptomStatus.new, SymptomStatus.resolved),
        (SymptomStatus.new, SymptomStatus.addressed)] :
          List (SymptomStatus × SymptomStatus))) ∧
    (∀ s t, allowedTransition s t = true → statusRank s < statusRank t) ∧
    (∀ s t, statusRank t ≤ statusRank s → allowedTransition s t = false) ∧
    (∀ (conf : Confidence) (r : PatientRecord) (rid : String) (st : SymptomStatus)
        (rep : SymptomReport),
      r.symptomReports.find? (fun x => decide (x.id = rid)) = some rep →
      allowedTransition rep.status st = false →
      mergeOne conf r (ProposedUpdate.setReportStatus rid st) =
        (r, ChangeEntry.skipped (ProposedUpdate.setReportStatus rid st)
          SkipReason.invalidTransition)) := by
  refine ⟨by decide, by decide, by decide, ?_⟩
  intro conf r rid st rep hfind hallowed
  simp [mergeOne, hfind, hallowed]

/-- Evaluation of the invalid-transition branch on a concrete record: a
proposal to move the resolved report sr-200 back to new is skipped and the
record is untouched. -/
theorem report_status_forward_only_witness :
    mergeOne Confidence.exact sampleRecord
        (ProposedUpdate.setReportStatus "sr-200" SymptomStatus.new) =
      (sampleRecord, ChangeEntry.skipped
        (ProposedUpdate.setReportStatus "sr-200" SymptomStatus.new)
        SkipReason.invalidTransition) :=
  report_status_forward_only.2.2.2 Confidence.exact sampleRecord "sr-200" SymptomStatus.new
    sampleReportResolved (by decide) (by decide)

/-- Writing one scalar field leaves every other scalar field unchanged. -/
theorem getScalar_setScalar_ne (r : PatientRecord) (f f' : ScalarField) (v : String)
    (h : f ≠ f') : getScalarField (setScalarField r f' v) f = getScalarField r f := by
  cases f <;> cases f' <;> first | rfl | exact absurd rfl h

/-- Rewriting a string-set field leaves every scalar field unchanged. -/
theorem getScalar_mapSet (r : PatientRecord) (sf : SetField) (g : List String → List String)
    (f : ScalarField) : getScalarField (mapSetField r sf g) f = getScalarField r f := by
  cases sf <;> cases f <;> rfl

/-- Refreshing the nextAppointment projection leaves every scalar field
unchanged. -/
theorem getScalar_setNext (s : PatientRecord) (x : Option String) (f : ScalarField) :
    getScalarField { s with nextAppointment := x } f = getScalarField s f := by
  cases f <;> rfl

/-- Under a name-matched resolution no single proposal changes a sensitive
scalar field. -/
theorem mergeOne_sensitive_frame (r : PatientRecord) (u : ProposedUpdate) (f : ScalarField)
    (hf : isSensitiveField f = true) :
    getScalarField (mergeOne Confidence.nameMatched r u).1 f = getScalarField r f := by
  cases u with
  | setScalar f' v =>
      by_cases hs : isSensitiveField f' = true
      · have hcond : (isSensitiveField f' && !(confidenceAllowsSensitive Confidence.nameMatched))
            = true := by rw [hs]; rfl
        simp [mergeOne, hcond]
      · have hne : f ≠ f' := by
          intro e
          rw [← e] at hs
          exact hs hf
        have hs2 : isSensitiveField f' = false := by simpa using hs
        have hcond : (isSensitiveField f' && !(confidenceAllowsSensitive Confidence.nameMatched))
            = false := by rw [hs2]; rfl
        simp only [mergeOne, hcond, Bool.false_eq_true, if_false]
        split
        · rfl
        · exact getScalar_setScalar_ne r f f' v hne
  | incCounter c d => cases c <;> cases f <;> rfl
  | addEntries f' es => exact getScalar_mapSet r f' _ f
  | bookAppointment a =>
      simp only [mergeOne]
      split <;> (cases f <;> rfl)
  | setAppointmentStatus w d st =>
      simp only [mergeOne]
      split <;> (cases f <;> rfl)
  | addSymptomReport rep =>
      simp only [mergeOne]
      split <;> (cases f <;> rfl)
  | setReportStatus rid st =>
      simp only [mergeOne]
      split <;> (try split) <;> (cases f <;> rfl)

/-- Under a name-matched resolution no batch changes a sensitive scalar
field. -/
theorem applyBatch_sensitive_frame (batch : List ProposedUpdate) :
    ∀ (r : PatientRecord) (f : ScalarField), isSensitiveField f = true →
      getScalarField (applyBatch Confidence.nameMatched r batch) f = getScalarField r f := by
  induction batch with
  | nil => intro r f _; rfl
  | cons u rest ih =>
      intro r f hf
      have hcons : applyBatch Confidence.nameMatched r (u :: rest)
          = applyBatch Confidence.nameMatched (mergeOne Confidence.nameMatched r u).1 rest := rfl
      rw [hcons, ih _ f hf, mergeOne_sensitive_frame r u f hf]

/-- A sensitive scalar proposal under a name-matched resolution produces the
needs-clarification changelog entry. -/
theorem mergeOne_sensitive_entry (r : PatientRecord) (f : ScalarField) (v : String)
    (hs : isSensitiveField f = true) :
    (mergeOne Confidence.nameMatched r (ProposedUpdate.setScalar f v)).2 =
      ChangeEntry.needsClarification (ProposedUpdate.setScalar f v)
        ClarifyReason.lowConfidenceSensitive := by
  have hcond : (isSensitiveField f && !(confidenceAllowsSensitive Confidence.nameMatched))
      = true := by rw [hs]; rfl
  simp [mergeOne, hcond]

/-- C5: on a record resolved at name-matched confidence, a proposal touching
an insurance or payment field is never silently applied: across any batch
every sensitive scalar field keeps its pre-merge value, and the changelog
answers every sensitive scalar proposal of the batch with a
needs-clarification entry. -/
theorem name_matched_sensitive_needs_clarification (notPast : String → Bool)
    (r : PatientRecord) (batch : List ProposedUpdate) :
    (∀ f, isSensitiveField f = true →
      getScalarField (reconcile Confidence.nameMatched notPast r batch).1 f
        = getScalarField r f) ∧
    List.Forall₂ (fun u e => ∀ f v, u = ProposedUpdate.setScalar f v →
        isSensitiveField f = true →
        e = ChangeEntry.needsClarification u ClarifyReason.lowConfidenceSensitive)
      batch (reconcile Confidence.nameMatched notPast r batch).2 := by
  constructor
  · intro f hf
    have h1 : (reconcile Confidence.nameMatched notPast r batch).1 =
        { applyBatch Confidence.nameMatched r batch with
          nextAppointment := recomputeNextAppointment notPast
            (applyBatch Confidence.nameMatched r batch).appointments } := rfl
    rw [h1, getScalar_setNext]
    exact applyBatch_sensitive_frame batch r f hf
  · have h2 : (reconcile Confidence.nameMatched notPast r batch).2 =
        (mergeBatch Confidence.nameMatched r batch).2 := rfl
    rw [h2]
    clear h2
    induction batch generalizing r with
    | nil => exact List.Forall₂.nil
    | cons u rest ih =>
        have hcons : (mergeBatch Confidence.nameMatched r (u :: rest)).2
            = (mergeOne Confidence.nameMatched r u).2 ::
              (mergeBatch Confidence.nameMatched (mergeOne Confidence.nameMatched r u).1 rest).2 :=
          rfl
        rw [hcons]
        refine List.Forall₂.cons ?_ (ih _)
        intro f v he hs
        rw [he]
        rw [he] at *
        exact mergeOne_sensitive_entry r f v hs

/-- Case-insensitive membership is stable under appending on the right. -/
theorem ciMem_append (x : String) (l l₂ : List String) (h : ciMem x l) :
    ciMem x (l ++ l₂) := by
  unfold ciMem at *
  rw [List.map_append]
  exact List.mem_append_left _ h

/-- The string-set union only appends: the result is the existing list
followed by proposed entries that were not yet present case-insensitively. -/
theorem mergeStringSet_decomp (es : List String) :
    ∀ l, ∃ extra, mergeStringSet l es = l ++ extra ∧
      ∀ x ∈ extra, x ∈ es ∧ ¬ ciMem x l := by
  induction es with
  | nil => intro l; exact ⟨[], by simp [mergeStringSet], by simp⟩
  | cons e rest ih =>
      intro l
      by_cases h : ciMem e l
      · have hm : mergeStringSet l (e :: rest) = mergeStringSet l rest := by
          simp [mergeStringSet, h]
        obtain ⟨extra, he, hp⟩ := ih l
        exact ⟨extra, by rw [hm, he],
          fun x hx => ⟨List.mem_cons_of_mem _ (hp x hx).1, (hp x hx).2⟩⟩
      · have hm : mergeStringSet l (e :: rest) = mergeStringSet (l ++ [e]) rest := by
          simp [mergeStringSet, h]
        obtain ⟨extra, he, hp⟩ := ih (l ++ [e])
        refine ⟨e :: extra, ?_, ?_⟩
        · rw [hm, he, List.append_assoc]
          rfl
        · intro x hx
          rcases List.mem_cons.mp hx with hx1 | hx2
          · subst hx1
            exact ⟨List.mem_cons_self _ _, h⟩
          · have hr := hp x hx2
            exact ⟨List.mem_cons_of_mem _ hr.1, fun hc => hr.2 (ciMem_append x l [e] hc)⟩

/-- The string-set union keeps a field free of case-insensitive
duplicates. -/
theorem ciNodup_mergeStringSet (es : List String) :
    ∀ l, ciNodup l → ciNodup (mergeStringSet l es) := by
  induction es with
  | nil => intro l h; exact h
  | cons e rest ih =>
      intro l h
      by_cases hc : ciMem e l
      · have hm : mergeStringSet l (e :: rest) = mergeStringSet l rest := by
          simp [mergeStringSet, hc]
        rw [hm]
        exact ih l h
      · have hm : mergeStringSet l (e :: rest) = mergeStringSet (l ++ [e]) rest := by
          simp [mergeStringSet, hc]
        rw [hm]
        apply ih
        unfold ciNodup at *
        rw [List.map_append, List.nodup_append]
        refine ⟨h, List.nodup_singleton _, ?_⟩
        intro a ha hb
        rw [List.map_singleton, List.mem_singleton] at hb
        subst hb
        exact hc ha

/-- Proposed entries that are all present already leave the field
untouched. -/
theorem mergeStringSet_absorbed (es : List String) :
    ∀ l, (∀ e ∈ es, ciMem e l) → mergeStringSet l es = l := by
  induction es with
  | nil => intro l _; rfl
  | cons e rest ih =>
      intro l h
      have hce : ciMem e l := h e (List.mem_cons_self _ _)
      have hm : mergeStringSet l (e :: rest) = mergeStringSet l rest := by
        simp [mergeStringSet, hce]
      rw [hm]
      exact ih l (fun x hx => h x (List.mem_cons_of_mem _ hx))

/-- Every proposed entry is present after the string-set union. -/
theorem ciMem_mergeStringSet (es : List String) :
    ∀ l, ∀ e ∈ es, ciMem e (mergeStringSet l es) := by
  induction es with
  | nil => intro l e he; cases he
  | cons a rest ih =>
      intro l e he
      by_cases hc : ciMem a l
      · have hm : mergeStringSet l (a :: rest) = mergeStringSet l rest := by
          simp [mergeStringSet, hc]
        rw [hm]
        rcases List.mem_cons.mp he with h1 | h2
        · subst h1
          obtain ⟨extra, heq, _⟩ := mergeStringSet_decomp rest l
          rw [heq]
          exact ciMem_append _ _ _ hc
        · exact ih l e h2
      · have hm : mergeStringSet l (a :: rest) = mergeStringSet (l ++ [a]) rest := by
          simp [mergeStringSet, hc]
        rw [hm]
        rcases List.mem_cons.mp he with h1 | h2
        · subst h1
          obtain ⟨extra, heq, _⟩ := mergeStringSet_decomp rest (l ++ [e])
          rw [heq]
          have hme : ciMem e (l ++ [e]) := by
            unfold ciMem
            rw [List.map_append, List.map_singleton]
            exact List.mem_append_right _ (List.mem_singleton.mpr rfl)
          exact ciMem_append _ _ _ hme
        · exact ih (l ++ [a]) e h2

/-- Rewriting one string-set field is read back unchanged for the same
field. -/
theorem getSet_mapSet_same (r : PatientRecord) (g : List String → List String) (f : SetField) :
    getSetField (mapSetField r f g) f = g (getSetField r f) := by
  cases f <;> rfl

/-- Rewriting one string-set field leaves the other string-set fields
unchanged. -/
theorem getSet_mapSet_ne (r : PatientRecord) (g : List String → List String)
    (f f' : SetField) (h : f ≠ f') :
    getSetField (mapSetField r f' g) f = getSetField r f := by
  cases f <;> cases f' <;> first | rfl | exact absurd rfl h

/-- Writing a scalar field leaves every string-set field unchanged. -/
theorem getSet_setScalar (r : PatientRecord) (f' : ScalarField) (v : String) (f : SetField) :
    getSetField (setScalarField r f' v) f = getSetField r f := by
  cases f' <;> cases f <;> rfl

/-- Refreshing the nextAppointment projection leaves every string-set field
unchanged. -/
theorem getSet_setNext (s : PatientRecord) (x : Option String) (f : SetField) :
    getSetField { s with nextAppointment := x } f = getSetField s f := by
  cases f <;> rfl

/-- Processing one proposal only ever appends to a string-set field, and the
appended entries come from a string-set proposal for that very field and
were not present case-insensitively before. -/
theorem mergeOne_set_decomp (conf : Confidence) (r : PatientRecord) (u : ProposedUpdate)
    (f : SetField) :
    ∃ extra, getSetField (mergeOne conf r u).1 f = getSetField r f ++ extra ∧
      ∀ x ∈ extra, ¬ ciMem x (getSetField r f) ∧
        ∃ es, u = ProposedUpdate.addEntries f es ∧ x ∈ es := by
  cases u with
  | setScalar f' v =>
      refine ⟨[], ?_, by simp⟩
      simp only [mergeOne]
      split
      · simp
      · split <;> simp [getSet_setScalar]
  | incCounter c d =>
      refine ⟨[], ?_, by simp⟩
      rw [List.append_nil]
      cases c <;> cases f <;> rfl
  | addEntries f' es =>
      by_cases hf : f' = f
      · subst hf
        obtain ⟨extra, he, hp⟩ := mergeStringSet_decomp es (getSetField r f')
        refine ⟨extra, ?_, fun x hx => ⟨(hp x hx).2, es, rfl, (hp x hx).1⟩⟩
        have h0 : getSetField (mergeOne conf r (ProposedUpdate.addEntries f' es)).1 f'
            = mergeStringSet (getSetField r f') es := getSet_mapSet_same r _ f'
        rw [h0, he]
      · refine ⟨[], ?_, by simp⟩
        have h0 : getSetField (mergeOne conf r (ProposedUpdate.addEntries f' es)).1 f
            = getSetField r f := getSet_mapSet_ne r _ f f' (fun e => hf e.symm)
        rw [h0]
        simp
  | bookAppointment a =>
      refine ⟨[], ?_, by simp⟩
      rw [List.append_nil]
      simp only [mergeOne]
      split <;> (cases f <;> rfl)
  | setAppointmentStatus w d st =>
      refine ⟨[], ?_, by simp⟩
      rw [List.append_nil]
      simp only [mergeOne]
      split <;> (cases f <;> rfl)
  | addSymptomReport rep =>
      refine ⟨[], ?_, by simp⟩
      rw [List.append_nil]
      simp only [mergeOne]
      split <;> (cases f <;> rfl)
  | setReportStatus rid st =>
      refine ⟨[], ?_, by simp⟩
      rw [List.append_nil]
      simp only [mergeOne]
      split <;> (try split) <;> (cases f <;> rfl)

/-- Processing one proposal keeps every string-set field free of
case-insensitive duplicates. -/
theorem mergeOne_set_nodup (conf : Confidence) (r : PatientRecord) (u : ProposedUpdate)
    (f : SetField) (h : ciNodup (getSetField r f)) :
    ciNodup (getSetField (mergeOne conf r u).1 f) := by
  cases u with
  | addEntries f' es =>
      by_cases hf : f' = f
      · subst hf
        have h0 : getSetField (mergeOne conf r (ProposedUpdate.addEntries f' es)).1 f'
            = mergeStringSet (getSetField r f') es := getSet_mapSet_same r _ f'
        rw [h0]
        exact ciNodup_mergeStringSet es _ h
      · have h0 : getSetField (mergeOne conf r (ProposedUpdate.addEntries f' es)).1 f
            = getSetField r f := getSet_mapSet_ne r _ f f' (fun e => hf e.symm)
        rw [h0]
        exact h
  | setScalar f' v =>
      have hd := mergeOne_set_decomp conf r (ProposedUpdate.setScalar f' v) f
      obtain ⟨extra, he, hp⟩ := hd
      have hex : extra = [] := by
        cases extra with
        | nil => rfl
        | cons x t =>
            obtain ⟨_, es, hu, _⟩ := hp x (List.mem_cons_self _ _)
            cases hu
      rw [he, hex, List.append_nil]
      exact h
  | incCounter c d =>
      have h0 : getSetField (mergeOne conf r (ProposedUpdate.incCounter c d)).1 f
          = getSetField r f := by cases c <;> cases f <;> rfl
      rw [h0]
      exact h
  | bookAppointment a =>
      obtain ⟨extra, he, hp⟩ := mergeOne_set_decomp conf r (ProposedUpdate.bookAppointment a) f
      have hex : extra = [] := by
        cases extra with
        | nil => rfl
        | cons x t =>
            obtain ⟨_, es, hu, _⟩ := hp x (List.mem_cons_self _ _)
            cases hu
      rw [he, hex, List.append_nil]
      exact h
  | setAppointmentStatus w d st =>
      obtain ⟨extra, he, hp⟩ :=
        mergeOne_set_decomp conf r (ProposedUpdate.setAppointmentStatus w d st) f
      have hex : extra = [] := by
        cases extra with
        | nil => rfl
        | cons x t =>
            obtain ⟨_, es, hu, _⟩ := hp x (List.mem_cons_self _ _)
            cases hu
      rw [he, hex, List.append_nil]
      exact h
  | addSymptomReport rep =>
      obtain ⟨extra, he, hp⟩ := mergeOne_set_decomp conf r (ProposedUpdate.addSymptomReport rep) f
      have hex : extra = [] := by
        cases extra with
        | nil => rfl
        | cons x t =>
            obtain ⟨_, es, hu, _⟩ := hp x (List.mem_cons_self _ _)
            cases hu
      rw [he, hex, List.append_nil]
      exact h
  | setReportStatus rid st =>
      obtain ⟨extra, he, hp⟩ := mergeOne_set_decomp conf r (ProposedUpdate.setReportStatus rid st) f
      have hex : extra = [] := by
        cases extra with
        | nil => rfl
        | cons x t =>
            obtain ⟨_, es, hu, _⟩ := hp x (List.mem_cons_self _ _)
            cases hu
      rw [he, hex, List.append_nil]
      exact h

/-- Across a whole batch a string-set field only grows by entries that some
string-set proposal of the batch carried and that were absent
case-insensitively before the batch. -/
theorem applyBatch_set_decomp (conf : Confidence) (batch : List ProposedUpdate) :
    ∀ (r : PatientRecord) (f : SetField),
      ∃ extra, getSetField (applyBatch conf r batch) f = getSetField r f ++ extra ∧
        ∀ x ∈ extra, ¬ ciMem x (getSetField r f) ∧
          ∃ es, ProposedUpdate.addEntries f es ∈ batch ∧ x ∈ es := by
  induction batch with
  | nil => intro r f; exact ⟨[], by simp [applyBatch, mergeBatch], by simp⟩
  | cons u rest ih =>
      intro r f
      obtain ⟨e0, h0, hp0⟩ := mergeOne_set_decomp conf r u f
      obtain ⟨e1, h1, hp1⟩ := ih (mergeOne conf r u).1 f
      refine ⟨e0 ++ e1, ?_, ?_⟩
      · have hcons : applyBatch conf r (u :: rest)
            = applyBatch conf (mergeOne conf r u).1 rest := rfl
        rw [hcons, h1, h0, List.append_assoc]
      · intro x hx
        rcases List.mem_append.mp hx with hx0 | hx1
        · obtain ⟨hnm, es, hu, hes⟩ := hp0 x hx0
          exact ⟨hnm, es, by rw [hu]; exact List.mem_cons_self _ _, hes⟩
        · obtain ⟨hnm, es, hmem, hes⟩ := hp1 x hx1
          refine ⟨fun hc => hnm ?_, es, List.mem_cons_of_mem _ hmem, hes⟩
          rw [h0]
          exact ciMem_append _ _ _ hc

/-- Across a whole batch every string-set field stays free of
case-insensitive duplicates. -/
theorem applyBatch_set_nodup (conf : Confidence) (batch : List ProposedUpdate) :
    ∀ (r : PatientRecord) (f : SetField), ciNodup (getSetField r f) →
      ciNodup (getSetField (applyBatch conf r batch) f) := by
  induction batch with
  | nil => intro r f h; exact h
  | cons u rest ih =>
      intro r f h
      have hcons : applyBatch conf r (u :: rest)
          = applyBatch conf (mergeOne conf r u).1 rest := rfl
      rw [hcons]
      exact ih _ f (mergeOne_set_nodup conf r u f h)

/-- C4: starting from a record whose string-set fields are free of
case-insensitive duplicates, every reconciliation call keeps conditions,
allergies, medications and consentForms free of case-insensitive
duplicates; the merge only ever appends, keeping every existing entry with
its first-seen casing, and every appended entry comes from a proposal of
the batch and was not present case-insensitively before. -/
theorem set_fields_ci_nodup (conf : Confidence) (notPast : String → Bool)
    (r : PatientRecord) (batch : List ProposedUpdate)
    (h : ∀ f, ciNodup (getSetField r f)) :
    ∀ f, ciNodup (getSetField (reconcile conf notPast r batch).1 f) ∧
      ∃ extra, getSetField (reconcile conf notPast r batch).1 f = getSetField r f ++ extra ∧
        ∀ x ∈ extra, ¬ ciMem x (getSetField r f) ∧
          ∃ es, ProposedUpdate.addEntries f es ∈ batch ∧ x ∈ es := by
  intro f
  have hre : getSetField (reconcile conf notPast r batch).1 f
      = getSetField (applyBatch conf r batch) f := getSet_setNext _ _ f
  constructor
  · rw [hre]
    exact applyBatch_set_nodup conf batch r f (h f)
  · rw [hre]
    exact applyBatch_set_decomp conf batch r f

/-- Evaluation of the dedup merge on the design scenario: allergies
Penicillin plus proposals penicillin and Pollen give Penicillin and Pollen,
keeping the first-seen casing, and the batch-level statement holds there. -/
theorem set_fields_ci_nodup_witness :
    (getSetField (reconcile Confidence.exact (fun _ => true) sampleRecord
        [ProposedUpdate.addEntries SetField.allergies ["penicillin", "Pollen"]]).1
        SetField.allergies = ["Penicillin", "Pollen"]) ∧
    (ciNodup (getSetField (reconcile Confidence.exact (fun _ => true) sampleRecord
        [ProposedUpdate.addEntries SetField.allergies ["penicillin", "Pollen"]]).1
        SetField.allergies) ∧
      ∃ extra, getSetField (reconcile Confidence.exact (fun _ => true) sampleRecord
          [ProposedUpdate.addEntries SetField.allergies ["penicillin", "Pollen"]]).1
          SetField.allergies = getSetField sampleRecord SetField.allergies ++ extra ∧
        ∀ x ∈ extra, ¬ ciMem x (getSetField sampleRecord SetField.allergies) ∧
          ∃ es, ProposedUpdate.addEntries SetField.allergies es ∈
              [ProposedUpdate.addEntries SetField.allergies ["penicillin", "Pollen"]] ∧
            x ∈ es) :=
  ⟨by decide, set_fields_ci_nodup Confidence.exact (fun _ => true) sampleRecord
    [ProposedUpdate.addEntries SetField.allergies ["penicillin", "Pollen"]]
    (by decide) SetField.allergies⟩

/-- An appointment key is taken exactly when it appears in the key list. -/
theorem hasApptKey_iff (l : List Appointment) (w : String) (d : Option String) :
    hasApptKey l w d ↔ (w, d) ∈ apptKeys l := by
  unfold hasApptKey apptKeys
  constructor
  · rintro ⟨a, ha, h1, h2⟩
    exact List.mem_map.mpr ⟨a, ha, by rw [h1, h2]⟩
  · intro h
    obtain ⟨a, ha, he⟩ := List.mem_map.mp h
    cases he
    exact ⟨a, ha, rfl, rfl⟩

/-- Processing one proposal only ever appends to the appointment key list:
existing entries keep their when+doctor key and their position. -/
theorem mergeOne_apptKeys (conf : Confidence) (r : PatientRecord) (u : ProposedUpdate) :
    ∃ tail, apptKeys (mergeOne conf r u).1.appointments = apptKeys r.appointments ++ tail := by
  cases u with
  | setScalar f v =>
      refine ⟨[], ?_⟩
      rw [List.append_nil]
      simp only [mergeOne]
      split
      · rfl
      · split
        · rfl
        · cases f <;> rfl
  | incCounter c d =>
      refine ⟨[], ?_⟩
      rw [List.append_nil]
      cases c <;> rfl
  | addEntries f es =>
      refine ⟨[], ?_⟩
      rw [List.append_nil]
      cases f <;> rfl
  | bookAppointment a =>
      simp only [mergeOne]
      split
      · exact ⟨[], by rw [List.append_nil]⟩
      · refine ⟨[(a.when, a.doctor)], ?_⟩
        show apptKeys (r.appointments ++ [{ a with status := ApptStatus.booked }])
            = apptKeys r.appointments ++ [(a.when, a.doctor)]
        unfold apptKeys
        rw [List.map_append]
        rfl
  | setAppointmentStatus w d st =>
      refine ⟨[], ?_⟩
      rw [List.append_nil]
      simp only [mergeOne]
      split
      · show apptKeys (r.appointments.map _) = apptKeys r.appointments
        unfold apptKeys
        rw [List.map_map]
        apply List.map_congr_left
        intro a _
        by_cases hc : a.when = w ∧ a.doctor = d <;> simp [hc]
      · rfl
  | addSymptomReport rep =>
      refine ⟨[], ?_⟩
      rw [List.append_nil]
      simp only [mergeOne]
      split <;> rfl
  | setReportStatus rid st =>
      refine ⟨[], ?_⟩
      rw [List.append_nil]
      simp only [mergeOne]
      split <;> (try split) <;> rfl

/-- The replay footprint of a proposal survives any further proposal. -/
theorem established_mono (conf : Confidence) (v : ProposedUpdate) (r : PatientRecord)
    (u : ProposedUpdate) (h : established u r) : established u (mergeOne conf r v).1 := by
  cases u with
  | addEntries f es =>
      show ∀ e ∈ es, ciMem e (getSetField (mergeOne conf r v).1 f)
      intro e he
      obtain ⟨extra, hex, _⟩ := mergeOne_set_decomp conf r v f
      rw [hex]
      exact ciMem_append _ _ _ (h e he)
  | bookAppointment a =>
      show hasApptKey (mergeOne conf r v).1.appointments a.when a.doctor
      have h2 : hasApptKey r.appointments a.when a.doctor := h
      rw [hasApptKey_iff] at h2 ⊢
      obtain ⟨tail, ht⟩ := mergeOne_apptKeys conf r v
      rw [ht]
      exact List.mem_append_left _ h2
  | setScalar f val => exact trivial
  | incCounter c d => exact trivial
  | setAppointmentStatus w d st => exact trivial
  | addSymptomReport rep => exact trivial
  | setReportStatus rid st => exact trivial

/-- Processing a proposal once leaves its replay footprint behind. -/
theorem established_self (conf : Confidence) (r : PatientRecord) (u : ProposedUpdate) :
    established u (mergeOne conf r u).1 := by
  cases u with
  | addEntries f es =>
      show ∀ e ∈ es, ciMem e (getSetField (mergeOne conf r (ProposedUpdate.addEntries f es)).1 f)
      intro e he
      have h0 : getSetField (mergeOne conf r (ProposedUpdate.addEntries f es)).1 f
          = mergeStringSet (getSetField r f) es := getSet_mapSet_same r _ f
      rw [h0]
      exact ciMem_mergeStringSet es _ e he
  | bookAppointment a =>
      show hasApptKey (mergeOne conf r (ProposedUpdate.bookAppointment a)).1.appointments
        a.when a.doctor
      simp only [mergeOne]
      split
      · next hkey => exact hkey
      · next hkey =>
          exact ⟨{ a with status := ApptStatus.booked },
            List.mem_append_right _ (List.mem_singleton.mpr rfl), rfl, rfl⟩
  | setScalar f val => exact trivial
  | incCounter c d => exact trivial
  | setAppointmentStatus w d st => exact trivial
  | addSymptomReport rep => exact trivial
  | setReportStatus rid st => exact trivial

/-- The replay footprint of a proposal survives any further batch. -/
theorem established_applyBatch (conf : Confidence) (batch : List ProposedUpdate) :
    ∀ (r : PatientRecord) (u : ProposedUpdate), established u r →
      established u (applyBatch conf r batch) := by
  induction batch with
  | nil => intro r u h; exact h
  | cons v rest ih =>
      intro r u h
      have hcons : applyBatch conf r (v :: rest)
          = applyBatch conf (mergeOne conf r v).1 rest := rfl
      rw [hcons]
      exact ih _ u (established_mono conf v r u h)

/-- After one pass over a batch, every proposal of the batch has left its
replay footprint on the resulting record. -/
theorem established_of_mem (conf : Confidence) (batch : List ProposedUpdate) :
    ∀ (r : PatientRecord) (u : ProposedUpdate), u ∈ batch →
      established u (applyBatch conf r batch) := by
  induction batch with
  | nil => intro r u h; cases h
  | cons v rest ih =>
      intro r u h
      have hcons : applyBatch conf r (v :: rest)
          = applyBatch conf (mergeOne conf r v).1 rest := rfl
      rw [hcons]
      rcases List.mem_cons.mp h with h1 | h2
      · subst h1
        exact established_applyBatch conf rest _ u (established_self conf r u)
      · exact ih _ u h2

/-- The replay footprint only looks at the array fields, so refreshing the
nextAppointment projection preserves it. -/
theorem established_setNext (u : ProposedUpdate) (s : PatientRecord) (x : Option String)
    (h : established u s) : established u { s with nextAppointment := x } := by
  cases u with
  | addEntries f es =>
      show ∀ e ∈ es, ciMem e (getSetField { s with nextAppointment := x } f)
      intro e he
      rw [getSet_setNext]
      exact h e he
  | bookAppointment a => exact h
  | setScalar f val => exact trivial
  | incCounter c d => exact trivial
  | setAppointmentStatus w d st => exact trivial
  | addSymptomReport rep => exact trivial
  | setReportStatus rid st => exact trivial

/-- Array-field agreement is reflexive. -/
theorem sameArrays_refl (r : PatientRecord) : sameArrays r r := ⟨rfl, rfl, rfl, rfl, rfl⟩

/-- Array-field agreement gives agreement of every string-set field. -/
theorem sameArrays_getSet (r1 s : PatientRecord) (h : sameArrays r1 s) :
    ∀ f, getSetField s f = getSetField r1 f := by
  intro f
  cases f with
  | consentForms => exact h.2.2.2.1
  | allergies => exact h.2.1
  | medications => exact h.2.2.1
  | conditions => exact h.1

/-- Transfer of array-field agreement through a step that keeps all
string-set fields and all appointment keys. -/
theorem sameArrays_of_frames (r1 s M : PatientRecord) (hs : sameArrays r1 s)
    (hset : ∀ g, getSetField M g = getSetField s g)
    (hkeys : apptKeys M.appointments = apptKeys s.appointments) : sameArrays r1 M := by
  obtain ⟨h1, h2, h3, h4, h5⟩ := hs
  exact ⟨(hset SetField.conditions).trans h1, (hset SetField.allergies).trans h2,
    (hset SetField.medications).trans h3, (hset SetField.consentForms).trans h4,
    hkeys.trans h5⟩

/-- Replaying one already-processed proposal cannot change the array fields:
a record that agrees with the once-reconciled record on them still does so
after the proposal runs again. -/
theorem sameArrays_step (conf : Confidence) (r1 s : PatientRecord) (u : ProposedUpdate)
    (hu : established u r1) (hs : sameArrays r1 s) :
    sameArrays r1 (mergeOne conf s u).1 := by
  cases u with
  | setScalar f v =>
      have hset : ∀ g, getSetField (mergeOne conf s (ProposedUpdate.setScalar f v)).1 g
          = getSetField s g := by
        intro g
        simp only [mergeOne]
        split
        · rfl
        · split
          · rfl
          · exact getSet_setScalar s f v g
      have ha : (mergeOne conf s (ProposedUpdate.setScalar f v)).1.appointments
          = s.appointments := by
        simp only [mergeOne]
        split
        · rfl
        · split
          · rfl
          · cases f <;> rfl
      exact sameArrays_of_frames r1 s _ hs hset (by rw [ha])
  | incCounter c d =>
      have hset : ∀ g, getSetField (mergeOne conf s (ProposedUpdate.incCounter c d)).1 g
          = getSetField s g := by intro g; cases c <;> cases g <;> rfl
      have ha : (mergeOne conf s (ProposedUpdate.incCounter c d)).1.appointments
          = s.appointments := by cases c <;> rfl
      exact sameArrays_of_frames r1 s _ hs hset (by rw [ha])
  | addEntries f es =>
      have hes : ∀ e ∈ es, ciMem e (getSetField s f) := by
        intro e he
        rw [sameArrays_getSet r1 s hs f]
        exact hu e he
      have habs : mergeStringSet (getSetField s f) es = getSetField s f :=
        mergeStringSet_absorbed es _ hes
      have hset : ∀ g, getSetField (mergeOne conf s (ProposedUpdate.addEntries f es)).1 g
          = getSetField s g := by
        intro g
        by_cases hg : f = g
        · subst hg
          exact (getSet_mapSet_same s _ f).trans habs
        · exact getSet_mapSet_ne s _ g f (fun e => hg e.symm)
      have ha : (mergeOne conf s (ProposedUpdate.addEntries f es)).1.appointments
          = s.appointments := by cases f <;> rfl
      exact sameArrays_of_frames r1 s _ hs hset (by rw [ha])
  | bookAppointment a =>
      have hk : hasApptKey s.appointments a.when a.doctor := by
        rw [hasApptKey_iff, hs.2.2.2.2]
        exact (hasApptKey_iff _ _ _).mp hu
      have hM : (mergeOne conf s (ProposedUpdate.bookAppointment a)).1 = s := by
        simp only [mergeOne]
        rw [if_pos hk]
      rw [hM]
      exact hs
  | setAppointmentStatus w d st =>
      have hkeys : apptKeys (mergeOne conf s (ProposedUpdate.setAppointmentStatus w d st)).1.appointments
          = apptKeys s.appointments := by
        simp only [mergeOne]
        split
        · show apptKeys (s.appointments.map _) = apptKeys s.appointments
          unfold apptKeys
          rw [List.map_map]
          apply List.map_congr_left
          intro a _
          by_cases hc : a.when = w ∧ a.doctor = d <;> simp [hc]
        · rfl
      have hset : ∀ g,
          getSetField (mergeOne conf s (ProposedUpdate.setAppointmentStatus w d st)).1 g
            = getSetField s g := by
        intro g
        simp only [mergeOne]
        split <;> (cases g <;> rfl)
      exact sameArrays_of_frames r1 s _ hs hset hkeys
  | addSymptomReport rep =>
      have hset : ∀ g, getSetField (mergeOne conf s (ProposedUpdate.addSymptomReport rep)).1 g
          = getSetField s g := by
        intro g
        simp only [mergeOne]
        split <;> (cases g <;> rfl)
      have ha : (mergeOne conf s (ProposedUpdate.addSymptomReport rep)).1.appointments
          = s.appointments := by
        simp only [mergeOne]
        split <;> rfl
      exact sameArrays_of_frames r1 s _ hs hset (by rw [ha])
  | setReportStatus rid st =>
      have hset : ∀ g, getSetField (mergeOne conf s (ProposedUpdate.setReportStatus rid st)).1 g
          = getSetField s g := by
        intro g
        simp only [mergeOne]
        split <;> (try split) <;> (cases g <;> rfl)
      have ha : (mergeOne conf s (ProposedUpdate.setReportStatus rid st)).1.appointments
          = s.appointments := by
        simp only [mergeOne]
        split <;> (try split) <;> rfl
      exact sameArrays_of_frames r1 s _ hs hset (by rw [ha])

/-- Replaying a whole batch whose proposals all left their footprint keeps
the array fields in agreement. -/
theorem sameArrays_applyBatch (conf : Confidence) (r1 : PatientRecord) :
    ∀ (batch : List ProposedUpdate) (s : PatientRecord),
      (∀ u ∈ batch, established u r1) → sameArrays r1 s →
      sameArrays r1 (applyBatch conf s batch) := by
  intro batch
  induction batch with
  | nil => intro s _ hs; exact hs
  | cons u rest ih =>
      intro s hall hs
      have hcons : applyBatch conf s (u :: rest)
          = applyBatch conf (mergeOne conf s u).1 rest := rfl
      rw [hcons]
      exact ih _ (fun v hv => hall v (List.mem_cons_of_mem _ hv))
        (sameArrays_step conf r1 s u (hall u (List.mem_cons_self _ _)) hs)

/-- C3: replaying the same proposed-update batch directly after a first
reconciliation (a caller retry) introduces no duplicate entry into the
append-only array fields: the four string-set fields come back exactly
equal, and the appointment log keeps exactly the same when+doctor keys in
the same order, so no allergy, medication, condition, consent form or
appointment entry is duplicated by the repetition. -/
theorem retried_batch_idempotent (conf : Confidence) (notPast : String → Bool)
    (r : PatientRecord) (batch : List ProposedUpdate) :
    (reconcile conf notPast (reconcile conf notPast r batch).1 batch).1.conditions
        = (reconcile conf notPast r batch).1.conditions ∧
    (reconcile conf notPast (reconcile conf notPast r batch).1 batch).1.allergies
        = (reconcile conf notPast r batch).1.allergies ∧
    (reconcile conf notPast (reconcile conf notPast r batch).1 batch).1.medications
        = (reconcile conf notPast r batch).1.medications ∧
    (reconcile conf notPast (reconcile conf notPast r batch).1 batch).1.consentForms
        = (reconcile conf notPast r batch).1.consentForms ∧
    apptKeys (reconcile conf notPast (reconcile conf notPast r batch).1 batch).1.appointments
        = apptKeys (reconcile conf notPast r batch).1.appointments := by
  have hest : ∀ u ∈ batch, established u (reconcile conf notPast r batch).1 := by
    intro u hu
    exact established_setNext u (applyBatch conf r batch) _
      (established_of_mem conf batch r u hu)
  have hsame : sameArrays (reconcile conf notPast r batch).1
      (applyBatch conf (reconcile conf notPast r batch).1 batch) :=
    sameArrays_applyBatch conf _ batch _ hest (sameArrays_refl _)
  obtain ⟨h1, h2, h3, h4, h5⟩ := hsame
  exact ⟨h1, h2, h3, h4, h5⟩

end Medivice
